import Mathlib

/-!
# Verification of the thinkwell conductor protocol layer

A shallow embedding of the thinkwell repository's protocol and conductor
subsystems, with theorems about the properties the specification states.

Embedded source files:
* `packages/protocol/src/json-rpc.ts` — JSON-RPC message shapes and type guards
* `packages/protocol/src/proxy-protocol.ts` — the `_proxy/successor/*` codec
* `packages/protocol/src/dispatch.ts` — the `Dispatch` envelope
* `packages/conductor/src/types.ts` — `RoleId`, `ROLE_COUNTERPART`, `ConductorMessage`
* `packages/conductor/src/message-queue.ts` — the `MessageQueue` class
* `packages/conductor/src/connectors/channel.ts` — `MessageChannel`,
  `ChannelConnectionEnd`, `createChannelPair`, `ChannelConnector`

JavaScript numbers are modelled as integers: none of the verified code performs
numeric arithmetic, numbers only occur as opaque payload values and ids.
-/

namespace Thinkwell

/-- The `JsonValue` type of `packages/protocol/src/json.ts`:
`string | number | boolean | null | JsonValue[] | { [key: string]: JsonValue }`. -/
inductive JsonValue where
  | null : JsonValue
  | bool (b : Bool) : JsonValue
  | num (n : Int) : JsonValue
  | str (s : String) : JsonValue
  | arr (elems : List JsonValue) : JsonValue
  | obj (fields : List (String × JsonValue)) : JsonValue

/-- `JsonRpcId` from `json-rpc.ts`: `string | number | null`. -/
inductive JsonRpcId where
  | str (s : String)
  | num (n : Int)
  | null
deriving DecidableEq

/-- `JsonRpcError` from `json-rpc.ts`. -/
structure JsonRpcError where
  code : Int
  message : String
  data : Option JsonValue := none

/-- A JSON-RPC wire message as an open record: each of the four interesting
keys is either present (`some`) or absent (`none`).  (`jsonrpc` is always
`"2.0"` and carries no information.)  This is the field-presence view that the
type guards of `json-rpc.ts` test with the `in` operator. -/
structure JsonRpcMessageRepr where
  id : Option JsonRpcId := none
  method : Option String := none
  params : Option JsonValue := none
  result : Option JsonValue := none
  error : Option JsonRpcError := none

/-- Membership in the TypeScript union
`JsonRpcMessage = JsonRpcRequest | JsonRpcNotification | JsonRpcResponse`:
a request has `id` and `method`, a notification has `method`, a response has
`id` and one of `result`/`error`.  Structural typing is open, so a value with
additional keys still inhabits a disjunct. -/
def IsJsonRpcMessage (m : JsonRpcMessageRepr) : Bool :=
  (m.method.isSome && m.id.isSome) ||
  (m.method.isSome && !m.id.isSome) ||
  (!m.method.isSome && m.id.isSome && (m.result.isSome || m.error.isSome))

/-- `isJsonRpcRequest` from `json-rpc.ts`: `"method" in message && "id" in message`. -/
def isJsonRpcRequest (m : JsonRpcMessageRepr) : Bool :=
  m.method.isSome && m.id.isSome

/-- `isJsonRpcNotification` from `json-rpc.ts`: `"method" in message && !("id" in message)`. -/
def isJsonRpcNotification (m : JsonRpcMessageRepr) : Bool :=
  m.method.isSome && !m.id.isSome

/-- `isJsonRpcResponse` from `json-rpc.ts`: `"id" in message && !("method" in message)`.
Note that the source does not inspect `result` or `error`. -/
def isJsonRpcResponse (m : JsonRpcMessageRepr) : Bool :=
  m.id.isSome && !m.method.isSome

/-- `RoleId` from `packages/conductor/src/types.ts`. -/
inductive RoleId where
  | client
  | agent
  | proxy
  | conductor
deriving DecidableEq

/-- The `ROLE_COUNTERPART` record from `packages/conductor/src/types.ts`. -/
def ROLE_COUNTERPART : RoleId → RoleId
  | .client => .agent
  | .agent => .client
  | .proxy => .conductor
  | .conductor => .proxy

/-- `ProxySuccessorRequestParams` from `proxy-protocol.ts`: the payload of a
`_proxy/successor/request` message; `params` is an optional key. -/
structure ProxySuccessorRequestParams where
  method : String
  params : Option JsonValue

/-- `ProxySuccessorNotificationParams` from `proxy-protocol.ts`. -/
structure ProxySuccessorNotificationParams where
  method : String
  params : Option JsonValue

/-- The `{ method: string; params: unknown }` record returned by the unwrap
functions of `proxy-protocol.ts`. -/
structure UnwrappedMessage where
  method : String
  params : Option JsonValue

/-- `unwrapProxySuccessorRequest` from `proxy-protocol.ts`. -/
def unwrapProxySuccessorRequest (p : ProxySuccessorRequestParams) : UnwrappedMessage :=
  { method := p.method, params := p.params }

/-- `unwrapProxySuccessorNotification` from `proxy-protocol.ts`. -/
def unwrapProxySuccessorNotification (p : ProxySuccessorNotificationParams) : UnwrappedMessage :=
  { method := p.method, params := p.params }

/-- `wrapAsProxySuccessorRequest` from `proxy-protocol.ts`. -/
def wrapAsProxySuccessorRequest (method : String) (params : Option JsonValue) :
    ProxySuccessorRequestParams :=
  { method := method, params := params }

/-- `wrapAsProxySuccessorNotification` from `proxy-protocol.ts`. -/
def wrapAsProxySuccessorNotification (method : String) (params : Option JsonValue) :
    ProxySuccessorNotificationParams :=
  { method := method, params := params }

/-- C10: `ROLE_COUNTERPART` is an involution on `RoleId`, pairing
`client ↔ agent` and `proxy ↔ conductor`. -/
theorem role_counterpart_involution :
    (∀ r : RoleId, ROLE_COUNTERPART (ROLE_COUNTERPART r) = r) ∧
    ROLE_COUNTERPART .client = .agent ∧ ROLE_COUNTERPART .agent = .client ∧
    ROLE_COUNTERPART .proxy = .conductor ∧ ROLE_COUNTERPART .conductor = .proxy := by
  refine ⟨?_, rfl, rfl, rfl, rfl⟩
  intro r
  cases r <;> rfl

/-- C6: wrapping a method/params pair as a `_proxy/successor/request` or
`_proxy/successor/notification` payload and unwrapping it recovers exactly the
original method and params; wrap and unwrap are pure total functions. -/
theorem proxy_wrap_unwrap_roundtrip :
    (∀ (m : String) (p : Option JsonValue),
      unwrapProxySuccessorRequest (wrapAsProxySuccessorRequest m p) =
        { method := m, params := p }) ∧
    (∀ (m : String) (p : Option JsonValue),
      unwrapProxySuccessorNotification (wrapAsProxySuccessorNotification m p) =
        { method := m, params := p }) := by
  exact ⟨fun m p => rfl, fun m p => rfl⟩

/-- A well-formed JSON-RPC success response that also carries an `error` key:
structurally it inhabits `JsonRpcSuccessResponse` (TypeScript records are open),
and `isJsonRpcResponse` accepts it, yet it carries both `result` and `error`. -/
def bothResultAndError : JsonRpcMessageRepr :=
  { id := some (.num 1), result := some (.bool true),
    error := some { code := -32603, message := "boom" } }

/-- C7 counterexample: `isJsonRpcResponse` does not require exactly one of
`result`/`error` — a well-formed message carrying both keys (no `method`,
an `id`) satisfies `isJsonRpcResponse` while having both `result` and `error`
present. -/
theorem response_guard_not_exactly_one :
    IsJsonRpcMessage bothResultAndError = true ∧
    isJsonRpcResponse bothResultAndError = true ∧
    bothResultAndError.result.isSome = true ∧
    bothResultAndError.error.isSome = true := by
  exact ⟨rfl, rfl, rfl, rfl⟩

/-- C7 (amended): over well-formed JSON-RPC messages, `isJsonRpcRequest` holds
iff the message has both `id` and `method`, `isJsonRpcNotification` holds iff
it has `method` without `id`, and `isJsonRpcResponse` holds iff it has `id`
without `method` (and then at least one of `result`/`error` is present, though
the guard itself does not check them); the three predicates are mutually
exclusive and cover every well-formed message. -/
theorem jsonrpc_classification (m : JsonRpcMessageRepr)
    (hm : IsJsonRpcMessage m = true) :
    (isJsonRpcRequest m = true ↔ m.id.isSome = true ∧ m.method.isSome = true) ∧
    (isJsonRpcNotification m = true ↔ m.method.isSome = true ∧ m.id.isSome = false) ∧
    (isJsonRpcResponse m = true ↔ m.id.isSome = true ∧ m.method.isSome = false) ∧
    (isJsonRpcResponse m = true → m.result.isSome = true ∨ m.error.isSome = true) ∧
    (¬(isJsonRpcRequest m = true ∧ isJsonRpcNotification m = true)) ∧
    (¬(isJsonRpcRequest m = true ∧ isJsonRpcResponse m = true)) ∧
    (¬(isJsonRpcNotification m = true ∧ isJsonRpcResponse m = true)) ∧
    (isJsonRpcRequest m = true ∨ isJsonRpcNotification m = true ∨
      isJsonRpcResponse m = true) := by
  rcases hid : m.id.isSome <;> rcases hmeth : m.method.isSome <;>
    simp_all [IsJsonRpcMessage, isJsonRpcRequest, isJsonRpcNotification,
      isJsonRpcResponse]

/-- Witness for `jsonrpc_classification` at a concrete request message. -/
theorem jsonrpc_classification_witness :
    IsJsonRpcMessage { id := some (.num 1), method := some "ping" } = true ∧
    (isJsonRpcRequest { id := some (.num 1), method := some "ping" } = true ∨
      isJsonRpcNotification { id := some (.num 1), method := some "ping" } = true ∨
      isJsonRpcResponse { id := some (.num 1), method := some "ping" } = true) := by
  refine ⟨rfl, ?_⟩
  exact (jsonrpc_classification { id := some (.num 1), method := some "ping" } rfl).2.2.2.2.2.2.2

/-- The `Responder` capability of `dispatch.ts`.  Its two callbacks
(`respond`, `respondWithError`) are delivery mechanisms bound at
dispatch-creation time; for the routing layer they are opaque, so the
capability is modelled as an abstract handle. -/
structure Responder where
  handle : Nat
deriving DecidableEq

/-- The `Dispatch` union of `dispatch.ts`:
`RequestDispatch | NotificationDispatch | ResponseDispatch`. -/
inductive Dispatch where
  | request (id : JsonRpcId) (method : String) (params : Option JsonValue)
      (responder : Responder)
  | notification (method : String) (params : Option JsonValue)
  | response (id : JsonRpcId) (result : Option JsonValue) (error : Option JsonRpcError)

/-- `SourceIndex` from `packages/conductor/src/types.ts`. -/
inductive SourceIndex where
  | proxy (index : Nat)
  | successor

/-- The `ConductorMessage` union of `packages/conductor/src/types.ts`:
the element type of the conductor's central queue. -/
inductive ConductorMessage where
  | leftToRight (targetIndex : Nat) (dispatch : Dispatch)
  | rightToLeft (sourceIndex : SourceIndex) (dispatch : Dispatch)
  | mcpConnectionReceived (acpUrl : String) (connectionId : String)
  | mcpConnectionEstablished (connectionId : String) (serverName serverVersion : String)
  | mcpClientToServer (connectionId : String) (dispatch : Dispatch)
  | mcpConnectionDisconnected (connectionId : String)
  | shutdown

/-- The `message.type === "shutdown"` test of `message-queue.ts`. -/
def ConductorMessage.isShutdown : ConductorMessage → Bool
  | .shutdown => true
  | _ => false

/-! ## MessageQueue (`packages/conductor/src/message-queue.ts`)

The class holds `queue: ConductorMessage[]`, `resolvers: Array<resolve>` and
`closed: boolean`.  There is a single logical consumer (the conductor's own
loop), so at most one resolver is ever registered; `waiting = true` models a
registered resolver, and `pend = some m` models a resolver that has been
resolved with `m` while the consumer has not yet resumed from its `await`.
`out` is the list of messages the async iterator has yielded so far, and
`done` records that the iterator has returned. -/

structure QState where
  buf : List ConductorMessage
  closed : Bool
  waiting : Bool
  pend : Option ConductorMessage
  out : List ConductorMessage
  done : Bool

/-- The freshly constructed `MessageQueue`, with its consumer at the loop head. -/
def QState.init : QState :=
  { buf := [], closed := false, waiting := false, pend := none, out := [], done := false }

/-- `MessageQueue.push`: a closed queue ignores the message; a suspended
consumer receives it directly through its resolver; otherwise it is buffered. -/
def pushQ (m : ConductorMessage) (s : QState) : QState :=
  if s.closed then s
  else if s.waiting then { s with waiting := false, pend := some m }
  else { s with buf := s.buf ++ [m] }

/-- `MessageQueue.close`: sets `closed` and resolves any registered resolver
with a synthetic `{ type: "shutdown" }` message. -/
def closeQ (s : QState) : QState :=
  if s.waiting then { s with closed := true, waiting := false, pend := some .shutdown }
  else { s with closed := true }

/-- One synchronous segment of the `[Symbol.asyncIterator]` generator body:
resume from a resolved `await` (shutdown check, then yield), or at the loop
head take a buffered message (shutdown check, then yield), suspend on an empty
open queue, or — once `closed` — drain the remaining buffer, skipping
`shutdown` messages, and return. -/
def cstep (s : QState) : QState :=
  if s.done then s
  else
    match s.pend with
    | some m =>
        if m.isShutdown then { s with pend := none, done := true }
        else { s with pend := none, out := s.out ++ [m] }
    | none =>
        if s.waiting then s
        else if s.closed then
          { s with buf := [],
                   out := s.out ++ s.buf.filter (fun m => !m.isShutdown),
                   done := true }
        else
          match s.buf with
          | [] => { s with waiting := true }
          | m :: rest =>
              if m.isShutdown then { s with buf := rest, done := true }
              else { s with buf := rest, out := s.out ++ [m] }

/-- Interleaved actions on a `MessageQueue`: producer pushes, a producer
closing the queue, and the consumer advancing by one synchronous segment. -/
inductive QAct where
  | push (m : ConductorMessage)
  | close
  | step

/-- Apply one action to the queue state. -/
def qapply (s : QState) (a : QAct) : QState :=
  match a with
  | .push m => pushQ m s
  | .close => closeQ s
  | .step => cstep s

/-- Run a whole interleaving from the initial state. -/
def qexec (t : List QAct) : QState :=
  t.foldl qapply QState.init

/-- Run the consumer for `n` further segments (producers idle). -/
def runConsumer : Nat → QState → QState
  | 0, s => s
  | n + 1, s => runConsumer n (cstep s)

/-- The messages a trace pushes while the queue is still open (`b` is the
closed flag carried along the trace): only these can ever be observed. -/
def qaccepted : List QAct → Bool → List ConductorMessage
  | [], _ => []
  | .push m :: t, false => m :: qaccepted t false
  | .push _ :: t, true => qaccepted t true
  | .close :: t, _ => qaccepted t true
  | .step :: t, b => qaccepted t b

/-- C5: once a `MessageQueue` is closed, `push` is a complete no-op (the whole
state, hence the buffered contents and everything the iterator will observe,
is unchanged), and `close()` releases a suspended consumer by resolving it with
a synthetic `shutdown` message, which terminates that consumer's iteration
without yielding anything further. -/
theorem mq_close_semantics :
    (∀ (s : QState) (m : ConductorMessage), s.closed = true → pushQ m s = s) ∧
    (∀ s : QState, s.waiting = true →
      (closeQ s).closed = true ∧
      (closeQ s).pend = some ConductorMessage.shutdown ∧
      (closeQ s).waiting = false ∧
      (cstep (closeQ s)).done = true ∧
      (cstep (closeQ s)).out = s.out) := by
  constructor
  · intro s m h
    simp [pushQ, h]
  · intro s h
    rcases hd : s.done with _ | _ <;>
      simp [closeQ, cstep, h, hd, ConductorMessage.isShutdown]

/-- A closed, otherwise empty queue state. -/
def closedEmptyQ : QState :=
  { buf := [], closed := true, waiting := false, pend := none, out := [], done := false }

/-- An open queue state whose consumer is suspended. -/
def waitingQ : QState :=
  { buf := [], closed := false, waiting := true, pend := none, out := [], done := false }

/-- Witness for `mq_close_semantics`: a closed queue drops a push, and closing
a queue with a suspended consumer terminates it. -/
theorem mq_close_semantics_witness :
    pushQ (.mcpConnectionDisconnected "c1") closedEmptyQ = closedEmptyQ ∧
    (cstep (closeQ waitingQ)).done = true := by
  constructor
  · exact mq_close_semantics.1 closedEmptyQ (.mcpConnectionDisconnected "c1") rfl
  · exact (mq_close_semantics.2 waitingQ rfl).2.2.2.1

/-- The pending-resolver contribution to the not-yet-observed messages: a
resolved `shutdown` (the synthetic close signal) is never yielded. -/
def pendList : Option ConductorMessage → List ConductorMessage
  | some m => if m.isShutdown then [] else [m]
  | none => []

/-- The messages a queue state still has in flight for its consumer. -/
def qeff (s : QState) : List ConductorMessage :=
  pendList s.pend ++ s.buf

/-- Invariant tying a queue state to the list `acc` of messages accepted while
open, for executions in which producers never push a `shutdown` message. -/
structure QInv (s : QState) (acc : List ConductorMessage) : Prop where
  out_eff : s.out ++ qeff s = acc
  waiting_empty : s.waiting = true → s.buf = [] ∧ s.pend = none
  pend_shutdown : ∀ m, s.pend = some m → m.isShutdown = true →
    s.closed = true ∧ s.buf = []
  done_closed : s.done = true → s.closed = true
  done_eff : s.done = true → qeff s = []
  done_waiting : s.done = true → s.waiting = false
  buf_clean : ∀ m ∈ s.buf, m.isShutdown = false

theorem qinv_init : QInv QState.init [] := by
  refine ⟨rfl, ?_, ?_, ?_, ?_, ?_, ?_⟩ <;> simp [QState.init, qeff, pendList]

theorem pushQ_closed (m : ConductorMessage) (s : QState) :
    (pushQ m s).closed = s.closed := by
  simp only [pushQ]
  split_ifs <;> rfl

theorem closeQ_closed (s : QState) : (closeQ s).closed = true := by
  simp only [closeQ]
  split_ifs <;> rfl

theorem cstep_closed (s : QState) : (cstep s).closed = s.closed := by
  rcases hd : s.done <;> rcases hp : s.pend with _ | m <;>
    rcases hw : s.waiting <;> rcases hc : s.closed <;>
    rcases hb : s.buf with _ | ⟨b, rest⟩ <;>
    simp [cstep, hd, hp, hw, hc, hb] <;> split_ifs <;> rfl

theorem qinv_push {s : QState} {acc : List ConductorMessage}
    {m : ConductorMessage} (h : QInv s acc) (hc : s.closed = false)
    (hm : m.isShutdown = false) : QInv (pushQ m s) (acc ++ [m]) := by
  rcases hw : s.waiting with _ | _
  · have hps : pushQ m s = { s with buf := s.buf ++ [m] } := by
      simp [pushQ, hc, hw]
    rw [hps]
    have hdone : s.done = false := by
      rcases hd : s.done with _ | _
      · rfl
      · exact absurd (h.done_closed hd) (by simp [hc])
    refine ⟨?_, ?_, ?_, ?_, ?_, ?_, ?_⟩
    · show s.out ++ (pendList s.pend ++ (s.buf ++ [m])) = acc ++ [m]
      have := h.out_eff
      simp only [qeff] at this
      rw [← this]
      simp [List.append_assoc]
    · intro hw2
      simp only at hw2
      rw [hw] at hw2
      exact absurd hw2 (by simp)
    · intro p hp hps2
      have := h.pend_shutdown p hp hps2
      exact absurd this.1 (by simp [hc])
    · intro hd
      simp only at hd
      rw [hdone] at hd
      exact absurd hd (by simp)
    · intro hd
      simp only at hd
      rw [hdone] at hd
      exact absurd hd (by simp)
    · intro hd
      simp only at hd
      rw [hdone] at hd
      exact absurd hd (by simp)
    · intro x hx
      simp only [List.mem_append, List.mem_singleton] at hx
      rcases hx with hx | rfl
      · exact h.buf_clean x hx
      · exact hm
  · have hps : pushQ m s = { s with waiting := false, pend := some m } := by
      simp [pushQ, hc, hw]
    obtain ⟨hbuf, hpend⟩ := h.waiting_empty hw
    have hdone : s.done = false := by
      rcases hd : s.done with _ | _
      · rfl
      · exact absurd hw (by simp [h.done_waiting hd])
    rw [hps]
    refine ⟨?_, ?_, ?_, ?_, ?_, ?_, ?_⟩
    · show s.out ++ (pendList (some m) ++ s.buf) = acc ++ [m]
      have := h.out_eff
      simp only [qeff, hbuf, hpend, pendList, List.append_nil] at this ⊢
      simp [hm, this]
    · intro hw2
      exact absurd hw2 (by simp)
    · intro p hp hps2
      simp only [Option.some.injEq] at hp
      rw [← hp] at hps2
      exact absurd hps2 (by simp [hm])
    · intro hd
      simp only at hd
      rw [hdone] at hd
      exact absurd hd (by simp)
    · intro hd
      simp only at hd
      rw [hdone] at hd
      exact absurd hd (by simp)
    · intro _
      rfl
    · exact h.buf_clean

theorem qinv_push_closed {s : QState} {m : ConductorMessage}
    (hc : s.closed = true) : pushQ m s = s := by
  simp [pushQ, hc]

theorem qinv_close {s : QState} {acc : List ConductorMessage}
    (h : QInv s acc) : QInv (closeQ s) acc := by
  rcases hw : s.waiting with _ | _
  · have hcs : closeQ s = { s with closed := true } := by simp [closeQ, hw]
    rw [hcs]
    refine ⟨h.out_eff, ?_, ?_, fun _ => rfl, h.done_eff, h.done_waiting, h.buf_clean⟩
    · intro hw2
      simp only at hw2
      rw [hw] at hw2
      exact absurd hw2 (by simp)
    · intro p hp hps
      exact ⟨rfl, (h.pend_shutdown p hp hps).2⟩
  · obtain ⟨hbuf, hpend⟩ := h.waiting_empty hw
    have hcs : closeQ s = { s with closed := true, waiting := false, pend := some .shutdown } := by
      simp [closeQ, hw]
    rw [hcs]
    refine ⟨?_, ?_, ?_, fun _ => rfl, ?_, fun _ => rfl, h.buf_clean⟩
    · show s.out ++ (pendList (some .shutdown) ++ s.buf) = acc
      have := h.out_eff
      simp only [qeff, hbuf, hpend, pendList, List.append_nil] at this ⊢
      simpa [ConductorMessage.isShutdown] using this
    · intro hw2
      exact absurd hw2 (by simp)
    · intro p hp _
      simp only [Option.some.injEq] at hp
      exact ⟨rfl, hbuf⟩
    · intro _
      show pendList (some .shutdown) ++ s.buf = []
      simp [pendList, ConductorMessage.isShutdown, hbuf]

theorem qinv_step {s : QState} {acc : List ConductorMessage}
    (h : QInv s acc) : QInv (cstep s) acc := by
  rcases hd : s.done with _ | _
  swap
  · have : cstep s = s := by simp [cstep, hd]
    rw [this]
    exact h
  rcases hp : s.pend with _ | m
  · rcases hw : s.waiting with _ | _
    swap
    · have : cstep s = s := by simp [cstep, hd, hp, hw]
      rw [this]
      exact h
    rcases hc : s.closed with _ | _
    swap
    · -- drain
      have hcs : cstep s = { s with buf := [], out := s.out ++ s.buf.filter (fun m => !m.isShutdown), done := true } := by
        simp [cstep, hd, hp, hw, hc]
      have hfilter : s.buf.filter (fun m => !m.isShutdown) = s.buf :=
        List.filter_eq_self.mpr (fun a ha => by simp [h.buf_clean a ha])
      rw [hcs, hfilter]
      refine ⟨?_, ?_, ?_, fun _ => hc, ?_, fun _ => hw, ?_⟩
      · show (s.out ++ s.buf) ++ (pendList s.pend ++ []) = acc
        have := h.out_eff
        simp only [qeff, hp, pendList, List.nil_append] at this
        simp [hp, pendList, this]
      · intro hw2
        simp only at hw2
        rw [hw] at hw2
        exact absurd hw2 (by simp)
      · intro p hp2 _
        simp only at hp2
        rw [hp] at hp2
        exact absurd hp2 (by simp)
      · intro _
        show pendList s.pend ++ [] = []
        simp [hp, pendList]
      · intro x hx
        exact absurd hx (by simp)
    · rcases hb : s.buf with _ | ⟨b, rest⟩
      · -- suspend
        have hcs : cstep s = { s with waiting := true } := by
          simp [cstep, hd, hp, hw, hc, hb]
        rw [hcs]
        refine ⟨?_, ?_, ?_, ?_, ?_, ?_, ?_⟩
        · show s.out ++ qeff s = acc
          exact h.out_eff
        · intro _
          exact ⟨hb, hp⟩
        · intro p hp2 _
          exact absurd hp2 (by simp [hp])
        · intro hd2
          simp only at hd2
          rw [hd] at hd2
          exact absurd hd2 (by simp)
        · intro hd2
          simp only at hd2
          rw [hd] at hd2
          exact absurd hd2 (by simp)
        · intro hd2
          simp only at hd2
          rw [hd] at hd2
          exact absurd hd2 (by simp)
        · exact h.buf_clean
      · -- take from buffer; the head is never a shutdown in clean traces
        have hbclean : b.isShutdown = false := h.buf_clean b (by simp [hb])
        have hcs : cstep s = { s with buf := rest, out := s.out ++ [b] } := by
          simp [cstep, hd, hp, hw, hc, hb, hbclean]
        rw [hcs]
        refine ⟨?_, ?_, ?_, ?_, ?_, ?_, ?_⟩
        · show (s.out ++ [b]) ++ (pendList s.pend ++ rest) = acc
          have := h.out_eff
          simp only [qeff, hp, pendList, List.nil_append, hb] at this
          rw [← this]
          simp [hp, pendList]
        · intro hw2
          simp only at hw2
          rw [hw] at hw2
          exact absurd hw2 (by simp)
        · intro p hp2 _
          exact absurd hp2 (by simp [hp])
        · intro hd2
          simp only at hd2
          rw [hd] at hd2
          exact absurd hd2 (by simp)
        · intro hd2
          simp only at hd2
          rw [hd] at hd2
          exact absurd hd2 (by simp)
        · intro hd2
          simp only at hd2
          rw [hd] at hd2
          exact absurd hd2 (by simp)
        · intro x hx
          exact h.buf_clean x (by simp [hb, hx])
  · -- resume from a resolved await
    rcases hms : m.isShutdown with _ | _
    · have hcs : cstep s = { s with pend := none, out := s.out ++ [m] } := by
        simp [cstep, hd, hp, hms]
      have hwfalse : s.waiting = false := by
        rcases hw : s.waiting with _ | _
        · rfl
        · exact absurd hp (by simp [(h.waiting_empty hw).2])
      rw [hcs]
      refine ⟨?_, ?_, ?_, ?_, ?_, ?_, h.buf_clean⟩
      · show (s.out ++ [m]) ++ (pendList none ++ s.buf) = acc
        have := h.out_eff
        simp only [qeff, hp, pendList, hms] at this
        rw [← this]
        simp [pendList]
      · intro hw2
        simp only at hw2
        rw [hwfalse] at hw2
        exact absurd hw2 (by simp)
      · intro p hp2 _
        exact absurd hp2 (by simp)
      · intro hd2
        simp only at hd2
        rw [hd] at hd2
        exact absurd hd2 (by simp)
      · intro hd2
        simp only at hd2
        rw [hd] at hd2
        exact absurd hd2 (by simp)
      · intro hd2
        simp only at hd2
        rw [hd] at hd2
        exact absurd hd2 (by simp)
    · obtain ⟨hc, hbuf⟩ := h.pend_shutdown m hp hms
      have hcs : cstep s = { s with pend := none, done := true } := by
        simp [cstep, hd, hp, hms]
      have hwfalse : s.waiting = false := by
        rcases hw : s.waiting with _ | _
        · rfl
        · exact absurd hp (by simp [(h.waiting_empty hw).2])
      rw [hcs]
      refine ⟨?_, ?_, ?_, fun _ => hc, ?_, fun _ => hwfalse, h.buf_clean⟩
      · show s.out ++ (pendList none ++ s.buf) = acc
        have := h.out_eff
        simp only [qeff, hp, pendList, hms, hbuf] at this ⊢
        simpa [hbuf] using this
      · intro hw2
        simp only at hw2
        rw [hwfalse] at hw2
        exact absurd hw2 (by simp)
      · intro p hp2 _
        exact absurd hp2 (by simp)
      · intro _
        simp [qeff, pendList, hbuf]

theorem qexec_inv_aux :
    ∀ (t : List QAct) (s : QState) (acc : List ConductorMessage),
      QInv s acc → (∀ m, QAct.push m ∈ t → m.isShutdown = false) →
      QInv (t.foldl qapply s) (acc ++ qaccepted t s.closed) := by
  intro t
  induction t with
  | nil =>
      intro s acc h _
      simpa [qaccepted] using h
  | cons a t ih =>
      intro s acc h hclean
      rcases a with m | _ | _
      · have hm : m.isShutdown = false := hclean m (by simp)
        rcases hc : s.closed with _ | _
        · have h2 := ih (pushQ m s) (acc ++ [m]) (qinv_push h hc hm)
            (fun p hp => hclean p (by simp [hp]))
          rw [pushQ_closed, hc] at h2
          simpa [List.foldl, qapply, qaccepted, hc, List.append_assoc] using h2
        · have hps : pushQ m s = s := qinv_push_closed hc
          have h2 := ih s acc h (fun p hp => hclean p (by simp [hp]))
          rw [hc] at h2
          simpa [List.foldl, qapply, hps, qaccepted, hc] using h2
      · have h2 := ih (closeQ s) acc (qinv_close h)
          (fun p hp => hclean p (by simp [hp]))
        rw [closeQ_closed] at h2
        rcases hc : s.closed with _ | _ <;>
          simpa [List.foldl, qapply, qaccepted, hc] using h2
      · have h2 := ih (cstep s) acc (qinv_step h)
          (fun p hp => hclean p (by simp [hp]))
        rw [cstep_closed] at h2
        simpa [List.foldl, qapply, qaccepted] using h2

theorem qflush :
    ∀ (n : Nat) (s : QState) (acc : List ConductorMessage),
      QInv s acc → (qeff s).length ≤ n → (runConsumer (n + 1) s).out = acc := by
  intro n
  induction n with
  | zero =>
      intro s acc h hlen
      have heff : qeff s = [] := List.eq_nil_of_length_eq_zero (Nat.le_zero.mp hlen)
      have hout : s.out = acc := by
        have := h.out_eff
        rwa [heff, List.append_nil] at this
      show (cstep s).out = acc
      rcases hd : s.done with _ | _
      swap
      · simp [cstep, hd, hout]
      rcases hp : s.pend with _ | m
      · have hbuf : s.buf = [] := by
          have := heff
          simp only [qeff, hp, pendList, List.nil_append] at this
          exact this
        rcases hw : s.waiting with _ | _
        · rcases hc : s.closed with _ | _ <;>
            simp [cstep, hd, hp, hw, hc, hbuf, hout]
        · simp [cstep, hd, hp, hw, hout]
      · have hms : m.isShutdown = true := by
          rcases hms : m.isShutdown with _ | _
          · exfalso
            have : pendList (some m) ++ s.buf = [] := by
              simpa [qeff, hp] using heff
            simp [pendList, hms] at this
          · rfl
        simp [cstep, hd, hp, hms, hout]
  | succ n ih =>
      intro s acc h hlen
      show (runConsumer (n + 1) (cstep s)).out = acc
      refine ih (cstep s) acc (qinv_step h) ?_
      -- the in-flight list shrinks (or the consumer is already quiescent)
      rcases hd : s.done with _ | _
      swap
      · have : cstep s = s := by simp [cstep, hd]
        rw [this]
        have := h.done_eff hd
        simp [this]
      rcases hp : s.pend with _ | m
      · rcases hw : s.waiting with _ | _
        swap
        · have : cstep s = s := by simp [cstep, hd, hp, hw]
          rw [this]
          have := (h.waiting_empty hw).1
          simp [qeff, hp, pendList, this]
        rcases hc : s.closed with _ | _
        swap
        · have hcs : cstep s = { s with buf := [], out := s.out ++ s.buf.filter (fun m => !m.isShutdown), done := true } := by
            simp [cstep, hd, hp, hw, hc]
          rw [hcs]
          simp [qeff, hp, pendList]
        · rcases hb : s.buf with _ | ⟨b, rest⟩
          · have hcs : cstep s = { s with waiting := true } := by
              simp [cstep, hd, hp, hw, hc, hb]
            rw [hcs]
            simp [qeff, hp, pendList, hb]
          · have hbclean : b.isShutdown = false := h.buf_clean b (by simp [hb])
            have hcs : cstep s = { s with buf := rest, out := s.out ++ [b] } := by
              simp [cstep, hd, hp, hw, hc, hb, hbclean]
            rw [hcs]
            have : qeff s = b :: rest := by simp [qeff, hp, pendList, hb]
            rw [this] at hlen
            simpa [qeff, hp, pendList] using Nat.le_of_succ_le_succ hlen
      · rcases hms : m.isShutdown with _ | _
        · have hcs : cstep s = { s with pend := none, out := s.out ++ [m] } := by
            simp [cstep, hd, hp, hms]
          rw [hcs]
          have : qeff s = m :: s.buf := by simp [qeff, hp, pendList, hms]
          rw [this] at hlen
          simpa [qeff, pendList] using Nat.le_of_succ_le_succ hlen
        · have hbuf : s.buf = [] := (h.pend_shutdown m hp hms).2
          have hcs : cstep s = { s with pend := none, done := true } := by
            simp [cstep, hd, hp, hms]
          rw [hcs]
          simp [qeff, pendList, hbuf]

/-- C1 (amended): for every interleaving of producer pushes, a close, and
consumer segments in which no producer pushes a `shutdown` event, running the
consumer to quiescence yields exactly the messages pushed while the queue was
open, in push order — no reordering, duplication, or loss. -/
theorem mq_fifo_order (t : List QAct)
    (hclean : ∀ m, QAct.push m ∈ t → m.isShutdown = false) :
    (runConsumer ((qexec t).buf.length + 2) (qexec t)).out = qaccepted t false := by
  have hinv : QInv (qexec t) (qaccepted t false) := by
    have := qexec_inv_aux t QState.init [] qinv_init hclean
    simpa [qexec, QState.init] using this
  have hlen : (qeff (qexec t)).length ≤ (qexec t).buf.length + 1 := by
    rcases hp : (qexec t).pend with _ | m
    · simp [qeff, pendList, hp]
    · rcases hms : m.isShutdown with _ | _ <;> simp [qeff, pendList, hp, hms]
  exact qflush ((qexec t).buf.length + 1) (qexec t) (qaccepted t false) hinv hlen

/-- An MCP bookkeeping event used as a concrete non-shutdown queue message. -/
def cexA : ConductorMessage := .mcpConnectionReceived "http://localhost" "c0"

/-- A second concrete non-shutdown queue message. -/
def cexB : ConductorMessage := .mcpConnectionDisconnected "c1"

/-- C1 counterexample: with a `shutdown` pushed mid-stream, the iterator stops
at the shutdown while the queue is still open, losing the non-shutdown event
`cexB` that was pushed before `close` — the yielded sequence is `[cexA]`, not
the non-shutdown pushes `[cexA, cexB]`. -/
theorem mq_fifo_order_counterexample :
    (qexec [.push cexA, .push .shutdown, .push cexB, .step, .step, .close, .step]).out
        = [cexA] ∧
    cexB ∉ (qexec [.push cexA, .push .shutdown, .push cexB, .step, .step, .close, .step]).out := by
  constructor
  · rfl
  · show cexB ∉ [cexA]
    simp [cexA, cexB]

/-- Witness for `mq_fifo_order` on a concrete shutdown-free trace. -/
theorem mq_fifo_order_witness :
    (runConsumer ((qexec [.push cexA, .push cexB, .close, .step]).buf.length + 2)
        (qexec [.push cexA, .push cexB, .close, .step])).out
      = qaccepted [.push cexA, .push cexB, .close, .step] false := by
  refine mq_fifo_order [.push cexA, .push cexB, .close, .step] ?_
  intro m hm
  simp only [List.mem_cons, List.not_mem_nil, or_false] at hm
  rcases hm with hm | hm | hm | hm
  · cases hm
    rfl
  · cases hm
    rfl
  · cases hm
  · cases hm

theorem qapply_out_clean {s : QState} (a : QAct)
    (h : ∀ m ∈ s.out, m.isShutdown = false) :
    ∀ m ∈ (qapply s a).out, m.isShutdown = false := by
  rcases a with p | _ | _
  · intro m hm
    refine h m ?_
    simp only [qapply, pushQ] at hm
    split_ifs at hm <;> simpa using hm
  · intro m hm
    refine h m ?_
    simp only [qapply, closeQ] at hm
    split_ifs at hm <;> simpa using hm
  · intro m hm
    simp only [qapply] at hm
    rcases hd : s.done with _ | _
    swap
    · rw [show cstep s = s from by simp [cstep, hd]] at hm
      exact h m hm
    rcases hp : s.pend with _ | p
    · rcases hw : s.waiting with _ | _
      swap
      · rw [show cstep s = s from by simp [cstep, hd, hp, hw]] at hm
        exact h m hm
      rcases hc : s.closed with _ | _
      swap
      · rw [show cstep s = { s with buf := [], out := s.out ++ s.buf.filter (fun x => !x.isShutdown), done := true } from by simp [cstep, hd, hp, hw, hc]] at hm
        simp only [List.mem_append] at hm
        rcases hm with hm | hm
        · exact h m hm
        · have := List.of_mem_filter hm
          simpa using this
      · rcases hb : s.buf with _ | ⟨b, rest⟩
        · rw [show cstep s = { s with waiting := true } from by simp [cstep, hd, hp, hw, hc, hb]] at hm
          exact h m hm
        · rcases hbs : b.isShutdown with _ | _
          · rw [show cstep s = { s with buf := rest, out := s.out ++ [b] } from by simp [cstep, hd, hp, hw, hc, hb, hbs]] at hm
            simp only [List.mem_append, List.mem_singleton] at hm
            rcases hm with hm | rfl
            · exact h m hm
            · exact hbs
          · rw [show cstep s = { s with buf := rest, done := true } from by simp [cstep, hd, hp, hw, hc, hb, hbs]] at hm
            exact h m hm
    · rcases hps : p.isShutdown with _ | _
      · rw [show cstep s = { s with pend := none, out := s.out ++ [p] } from by simp [cstep, hd, hp, hps]] at hm
        simp only [List.mem_append, List.mem_singleton] at hm
        rcases hm with hm | rfl
        · exact h m hm
        · exact hps
      · rw [show cstep s = { s with pend := none, done := true } from by simp [cstep, hd, hp, hps]] at hm
        exact h m hm

theorem qexec_out_clean (t : List QAct) :
    ∀ m ∈ (qexec t).out, m.isShutdown = false := by
  suffices h : ∀ (t : List QAct) (s : QState),
      (∀ m ∈ s.out, m.isShutdown = false) →
      ∀ m ∈ (t.foldl qapply s).out, m.isShutdown = false by
    exact h t QState.init (by simp [QState.init])
  intro t
  induction t with
  | nil => intro s hs; simpa using hs
  | cons a t ih =>
      intro s hs
      exact ih (qapply s a) (qapply_out_clean a hs)

theorem runConsumer_out_clean (n : Nat) :
    ∀ (s : QState), (∀ m ∈ s.out, m.isShutdown = false) →
      ∀ m ∈ (runConsumer n s).out, m.isShutdown = false := by
  induction n with
  | zero => intro s hs; simpa [runConsumer] using hs
  | succ n ih =>
      intro s hs
      exact ih (cstep s) (qapply_out_clean .step hs)

/-- C4 (amended): a `shutdown` is never yielded by the queue's iterator, in any
interleaving; a `shutdown` resolved into an awaiting consumer, or dequeued
while the queue is still open, terminates the iteration immediately at that
point; but once `close()` has been called, the final drain yields every
remaining buffered non-shutdown message — a buffered `shutdown` is skipped, not
a stopping point, so buffered events pushed after it are still yielded. -/
theorem mq_shutdown_semantics :
    (∀ (t : List QAct) (n : Nat) (m : ConductorMessage),
        m ∈ (runConsumer n (qexec t)).out → m.isShutdown = false) ∧
    (∀ (s : QState) (m : ConductorMessage), s.done = false → s.pend = some m →
        m.isShutdown = true → (cstep s).done = true ∧ (cstep s).out = s.out) ∧
    (∀ (s : QState) (rest : List ConductorMessage), s.done = false →
        s.pend = none → s.waiting = false → s.closed = false →
        s.buf = ConductorMessage.shutdown :: rest →
        (cstep s).done = true ∧ (cstep s).out = s.out) ∧
    (∀ s : QState, s.done = false → s.pend = none → s.waiting = false →
        s.closed = true →
        (cstep s).done = true ∧
        (cstep s).out = s.out ++ s.buf.filter (fun m => !m.isShutdown)) := by
  refine ⟨?_, ?_, ?_, ?_⟩
  · intro t n m hm
    exact runConsumer_out_clean n (qexec t) (qexec_out_clean t) m hm
  · intro s m hd hp hms
    constructor <;> simp [cstep, hd, hp, hms]
  · intro s rest hd hp hw hc hb
    constructor <;> simp [cstep, hd, hp, hw, hc, hb, ConductorMessage.isShutdown]
  · intro s hd hp hw hc
    constructor <;> simp [cstep, hd, hp, hw, hc]

/-- C4 counterexample: a `shutdown` buffered at close time does not end the
drain — an event pushed after the shutdown (and before close) is still
yielded, so iteration does not stop "at that point". -/
theorem mq_shutdown_semantics_counterexample :
    (qexec [.push .shutdown, .push cexB, .close, .step]).out = [cexB] ∧
    (qexec [.push .shutdown, .push cexB, .close, .step]).done = true := by
  exact ⟨rfl, rfl⟩

/-- A state whose consumer holds a freshly resolved synthetic shutdown. -/
def pendShutdownQ : QState :=
  { buf := [], closed := true, waiting := false, pend := some .shutdown,
    out := [], done := false }

/-- A closed state with a shutdown buried in its buffer, ready to drain. -/
def drainReadyQ : QState :=
  { buf := [.shutdown, cexB], closed := true, waiting := false, pend := none,
    out := [], done := false }

/-- Witness for `mq_shutdown_semantics` at concrete states. -/
theorem mq_shutdown_semantics_witness :
    ((cstep pendShutdownQ).done = true ∧ (cstep pendShutdownQ).out = pendShutdownQ.out) ∧
    ((cstep drainReadyQ).done = true ∧
      (cstep drainReadyQ).out = drainReadyQ.out ++ drainReadyQ.buf.filter (fun m => !m.isShutdown)) := by
  exact ⟨mq_shutdown_semantics.2.1 pendShutdownQ .shutdown rfl rfl rfl,
    mq_shutdown_semantics.2.2.2 drainReadyQ rfl rfl rfl rfl⟩

/-! ## MessageChannel (`packages/conductor/src/connectors/channel.ts`)

`MessageChannel` is structured like `MessageQueue` but carries
`JsonRpcMessage`s and signals termination by resolving a waiting consumer with
`null` instead of a synthetic shutdown; its drain loop yields every remaining
buffered message.  `pend = some (some m)` models a resolver resolved with a
message, `pend = some none` one resolved with `null`. -/

structure MState where
  buf : List JsonRpcMessageRepr
  closed : Bool
  waiting : Bool
  pend : Option (Option JsonRpcMessageRepr)
  out : List JsonRpcMessageRepr
  done : Bool

/-- A freshly constructed `MessageChannel` with its consumer at the loop head. -/
def MState.init : MState :=
  { buf := [], closed := false, waiting := false, pend := none, out := [], done := false }

/-- `MessageChannel.push`. -/
def mpush (m : JsonRpcMessageRepr) (s : MState) : MState :=
  if s.closed then s
  else if s.waiting then { s with waiting := false, pend := some (some m) }
  else { s with buf := s.buf ++ [m] }

/-- `MessageChannel.close`: sets `closed` and resolves any registered resolver
with `null`. -/
def mclose (s : MState) : MState :=
  if s.waiting then { s with closed := true, waiting := false, pend := some none }
  else { s with closed := true }

/-- One synchronous segment of `MessageChannel`'s `[Symbol.asyncIterator]`
generator: resume from a resolved `await` (`null` terminates, a message is
yielded), or at the loop head take a buffered message, suspend on an empty
open channel, or — once closed — drain the remaining buffer and return. -/
def mstep (s : MState) : MState :=
  if s.done then s
  else
    match s.pend with
    | some (some m) => { s with pend := none, out := s.out ++ [m] }
    | some none => { s with pend := none, done := true }
    | none =>
        if s.waiting then s
        else if s.closed then
          { s with buf := [], out := s.out ++ s.buf, done := true }
        else
          match s.buf with
          | [] => { s with waiting := true }
          | m :: rest => { s with buf := rest, out := s.out ++ [m] }

/-- Interleaved actions on a `MessageChannel`. -/
inductive MAct where
  | push (m : JsonRpcMessageRepr)
  | close
  | step

/-- Apply one action to the channel state. -/
def mapply (s : MState) (a : MAct) : MState :=
  match a with
  | .push m => mpush m s
  | .close => mclose s
  | .step => mstep s

/-- Run a whole interleaving from the initial channel state. -/
def mexec (t : List MAct) : MState :=
  t.foldl mapply MState.init

/-- Run the channel's consumer for `n` further segments. -/
def runChan : Nat → MState → MState
  | 0, s => s
  | n + 1, s => runChan n (mstep s)

/-- The messages a channel trace pushes while the channel is still open. -/
def maccepted : List MAct → Bool → List JsonRpcMessageRepr
  | [], _ => []
  | .push m :: t, false => m :: maccepted t false
  | .push _ :: t, true => maccepted t true
  | .close :: t, _ => maccepted t true
  | .step :: t, b => maccepted t b

/-- The resolver contribution to a channel's in-flight messages. -/
def mpendList : Option (Option JsonRpcMessageRepr) → List JsonRpcMessageRepr
  | some (some m) => [m]
  | some none => []
  | none => []

/-- The messages a channel state still has in flight for its consumer. -/
def meff (s : MState) : List JsonRpcMessageRepr :=
  mpendList s.pend ++ s.buf

/-- Invariant tying a channel state to the pushes `acc` accepted while open. -/
structure MInv (s : MState) (acc : List JsonRpcMessageRepr) : Prop where
  out_eff : s.out ++ meff s = acc
  waiting_empty : s.waiting = true → s.buf = [] ∧ s.pend = none
  pend_null : s.pend = some none → s.closed = true ∧ s.buf = []
  done_closed : s.done = true → s.closed = true
  done_eff : s.done = true → meff s = []
  done_waiting : s.done = true → s.waiting = false

theorem minv_init : MInv MState.init [] := by
  refine ⟨rfl, ?_, ?_, ?_, ?_, ?_⟩ <;> simp [MState.init, meff, mpendList]

theorem mpush_closed (m : JsonRpcMessageRepr) (s : MState) :
    (mpush m s).closed = s.closed := by
  simp only [mpush]
  split_ifs <;> rfl

theorem mclose_closed (s : MState) : (mclose s).closed = true := by
  simp only [mclose]
  split_ifs <;> rfl

theorem mstep_closed (s : MState) : (mstep s).closed = s.closed := by
  rcases hd : s.done <;> rcases hp : s.pend with _ | ⟨_ | m⟩ <;>
    rcases hw : s.waiting <;> rcases hc : s.closed <;>
    rcases hb : s.buf with _ | ⟨b, rest⟩ <;>
    simp [mstep, hd, hp, hw, hc, hb]

theorem minv_push {s : MState} {acc : List JsonRpcMessageRepr}
    {m : JsonRpcMessageRepr} (h : MInv s acc) (hc : s.closed = false) :
    MInv (mpush m s) (acc ++ [m]) := by
  rcases hw : s.waiting with _ | _
  · have hps : mpush m s = { s with buf := s.buf ++ [m] } := by
      simp [mpush, hc, hw]
    have hdone : s.done = false := by
      rcases hd : s.done with _ | _
      · rfl
      · exact absurd (h.done_closed hd) (by simp [hc])
    rw [hps]
    refine ⟨?_, ?_, ?_, ?_, ?_, ?_⟩
    · show s.out ++ (mpendList s.pend ++ (s.buf ++ [m])) = acc ++ [m]
      have := h.out_eff
      simp only [meff] at this
      rw [← this]
      simp [List.append_assoc]
    · intro hw2
      simp only at hw2
      rw [hw] at hw2
      exact absurd hw2 (by simp)
    · intro hp
      simp only at hp
      exact absurd (h.pend_null hp).1 (by simp [hc])
    · intro hd
      simp only at hd
      rw [hdone] at hd
      exact absurd hd (by simp)
    · intro hd
      simp only at hd
      rw [hdone] at hd
      exact absurd hd (by simp)
    · intro hd
      simp only at hd
      rw [hdone] at hd
      exact absurd hd (by simp)
  · have hps : mpush m s = { s with waiting := false, pend := some (some m) } := by
      simp [mpush, hc, hw]
    obtain ⟨hbuf, hpend⟩ := h.waiting_empty hw
    have hdone : s.done = false := by
      rcases hd : s.done with _ | _
      · rfl
      · exact absurd hw (by simp [h.done_waiting hd])
    rw [hps]
    refine ⟨?_, ?_, ?_, ?_, ?_, ?_⟩
    · show s.out ++ (mpendList (some (some m)) ++ s.buf) = acc ++ [m]
      have := h.out_eff
      simp only [meff, hbuf, hpend, mpendList, List.append_nil] at this ⊢
      simp [this]
    · intro hw2
      exact absurd hw2 (by simp)
    · intro hp
      simp only [Option.some.injEq] at hp
      exact absurd hp (by simp)
    · intro hd
      simp only at hd
      rw [hdone] at hd
      exact absurd hd (by simp)
    · intro hd
      simp only at hd
      rw [hdone] at hd
      exact absurd hd (by simp)
    · intro _
      rfl

theorem minv_push_closed {s : MState} {m : JsonRpcMessageRepr}
    (hc : s.closed = true) : mpush m s = s := by
  simp [mpush, hc]

theorem minv_close {s : MState} {acc : List JsonRpcMessageRepr}
    (h : MInv s acc) : MInv (mclose s) acc := by
  rcases hw : s.waiting with _ | _
  · have hcs : mclose s = { s with closed := true } := by simp [mclose, hw]
    rw [hcs]
    refine ⟨h.out_eff, ?_, ?_, fun _ => rfl, h.done_eff, h.done_waiting⟩
    · intro hw2
      simp only at hw2
      rw [hw] at hw2
      exact absurd hw2 (by simp)
    · intro hp
      exact ⟨rfl, (h.pend_null hp).2⟩
  · obtain ⟨hbuf, hpend⟩ := h.waiting_empty hw
    have hcs : mclose s = { s with closed := true, waiting := false, pend := some none } := by
      simp [mclose, hw]
    rw [hcs]
    refine ⟨?_, ?_, ?_, fun _ => rfl, ?_, fun _ => rfl⟩
    · show s.out ++ (mpendList (some none) ++ s.buf) = acc
      have := h.out_eff
      simp only [meff, hbuf, hpend, mpendList, List.append_nil] at this ⊢
      simpa using this
    · intro hw2
      exact absurd hw2 (by simp)
    · intro _
      exact ⟨rfl, hbuf⟩
    · intro _
      show mpendList (some none) ++ s.buf = []
      simp [mpendList, hbuf]

theorem minv_step {s : MState} {acc : List JsonRpcMessageRepr}
    (h : MInv s acc) : MInv (mstep s) acc := by
  rcases hd : s.done with _ | _
  swap
  · have : mstep s = s := by simp [mstep, hd]
    rw [this]
    exact h
  rcases hp : s.pend with _ | ⟨_ | m⟩
  · rcases hw : s.waiting with _ | _
    swap
    · have : mstep s = s := by simp [mstep, hd, hp, hw]
      rw [this]
      exact h
    rcases hc : s.closed with _ | _
    swap
    · have hcs : mstep s = { s with buf := [], out := s.out ++ s.buf, done := true } := by
        simp [mstep, hd, hp, hw, hc]
      rw [hcs]
      refine ⟨?_, ?_, ?_, fun _ => hc, ?_, fun _ => hw⟩
      · show (s.out ++ s.buf) ++ (mpendList s.pend ++ []) = acc
        have := h.out_eff
        simp only [meff, hp, mpendList, List.nil_append] at this
        simp [hp, mpendList, this]
      · intro hw2
        simp only at hw2
        rw [hw] at hw2
        exact absurd hw2 (by simp)
      · intro hp2
        simp only at hp2
        rw [hp] at hp2
        exact absurd hp2 (by simp)
      · intro _
        show mpendList s.pend ++ [] = []
        simp [hp, mpendList]
    · rcases hb : s.buf with _ | ⟨b, rest⟩
      · have hcs : mstep s = { s with waiting := true } := by
          simp [mstep, hd, hp, hw, hc, hb]
        rw [hcs]
        refine ⟨h.out_eff, ?_, ?_, ?_, ?_, ?_⟩
        · intro _
          exact ⟨hb, hp⟩
        · intro hp2
          simp only at hp2
          rw [hp] at hp2
          exact absurd hp2 (by simp)
        · intro hd2
          simp only at hd2
          rw [hd] at hd2
          exact absurd hd2 (by simp)
        · intro hd2
          simp only at hd2
          rw [hd] at hd2
          exact absurd hd2 (by simp)
        · intro hd2
          simp only at hd2
          rw [hd] at hd2
          exact absurd hd2 (by simp)
      · have hcs : mstep s = { s with buf := rest, out := s.out ++ [b] } := by
          simp [mstep, hd, hp, hw, hc, hb]
        rw [hcs]
        refine ⟨?_, ?_, ?_, ?_, ?_, ?_⟩
        · show (s.out ++ [b]) ++ (mpendList s.pend ++ rest) = acc
          have := h.out_eff
          simp only [meff, hp, mpendList, List.nil_append, hb] at this
          rw [← this]
          simp [hp, mpendList]
        · intro hw2
          simp only at hw2
          rw [hw] at hw2
          exact absurd hw2 (by simp)
        · intro hp2
          simp only at hp2
          rw [hp] at hp2
          exact absurd hp2 (by simp)
        · intro hd2
          simp only at hd2
          rw [hd] at hd2
          exact absurd hd2 (by simp)
        · intro hd2
          simp only at hd2
          rw [hd] at hd2
          exact absurd hd2 (by simp)
        · intro hd2
          simp only at hd2
          rw [hd] at hd2
          exact absurd hd2 (by simp)
  · -- resolved with null: terminate
    obtain ⟨hc, hbuf⟩ := h.pend_null hp
    have hcs : mstep s = { s with pend := none, done := true } := by
      simp [mstep, hd, hp]
    have hwfalse : s.waiting = false := by
      rcases hw : s.waiting with _ | _
      · rfl
      · exact absurd hp (by simp [(h.waiting_empty hw).2])
    rw [hcs]
    refine ⟨?_, ?_, ?_, fun _ => hc, ?_, fun _ => hwfalse⟩
    · show s.out ++ (mpendList none ++ s.buf) = acc
      have := h.out_eff
      simp only [meff, hp, mpendList, hbuf] at this ⊢
      simpa [hbuf] using this
    · intro hw2
      simp only at hw2
      rw [hwfalse] at hw2
      exact absurd hw2 (by simp)
    · intro hp2
      exact absurd hp2 (by simp)
    · intro _
      simp [meff, mpendList, hbuf]
  · -- resolved with a message: yield it
    have hcs : mstep s = { s with pend := none, out := s.out ++ [m] } := by
      simp [mstep, hd, hp]
    have hwfalse : s.waiting = false := by
      rcases hw : s.waiting with _ | _
      · rfl
      · exact absurd hp (by simp [(h.waiting_empty hw).2])
    rw [hcs]
    refine ⟨?_, ?_, ?_, ?_, ?_, ?_⟩
    · show (s.out ++ [m]) ++ (mpendList none ++ s.buf) = acc
      have := h.out_eff
      simp only [meff, hp, mpendList] at this
      rw [← this]
      simp [mpendList]
    · intro hw2
      simp only at hw2
      rw [hwfalse] at hw2
      exact absurd hw2 (by simp)
    · intro hp2
      exact absurd hp2 (by simp)
    · intro hd2
      simp only at hd2
      rw [hd] at hd2
      exact absurd hd2 (by simp)
    · intro hd2
      simp only at hd2
      rw [hd] at hd2
      exact absurd hd2 (by simp)
    · intro hd2
      simp only at hd2
      rw [hd] at hd2
      exact absurd hd2 (by simp)

theorem mexec_inv_aux :
    ∀ (t : List MAct) (s : MState) (acc : List JsonRpcMessageRepr),
      MInv s acc → MInv (t.foldl mapply s) (acc ++ maccepted t s.closed) := by
  intro t
  induction t with
  | nil =>
      intro s acc h
      simpa [maccepted] using h
  | cons a t ih =>
      intro s acc h
      rcases a with m | _ | _
      · rcases hc : s.closed with _ | _
        · have h2 := ih (mpush m s) (acc ++ [m]) (minv_push h hc)
          rw [mpush_closed, hc] at h2
          simpa [List.foldl, mapply, maccepted, hc, List.append_assoc] using h2
        · have hps : mpush m s = s := minv_push_closed hc
          have h2 := ih s acc h
          rw [hc] at h2
          simpa [List.foldl, mapply, hps, maccepted, hc] using h2
      · have h2 := ih (mclose s) acc (minv_close h)
        rw [mclose_closed] at h2
        rcases hc : s.closed with _ | _ <;>
          simpa [List.foldl, mapply, maccepted, hc] using h2
      · have h2 := ih (mstep s) acc (minv_step h)
        rw [mstep_closed] at h2
        simpa [List.foldl, mapply, maccepted] using h2

theorem mflush :
    ∀ (n : Nat) (s : MState) (acc : List JsonRpcMessageRepr),
      MInv s acc → (meff s).length ≤ n → (runChan (n + 1) s).out = acc := by
  intro n
  induction n with
  | zero =>
      intro s acc h hlen
      have heff : meff s = [] := List.eq_nil_of_length_eq_zero (Nat.le_zero.mp hlen)
      have hout : s.out = acc := by
        have := h.out_eff
        rwa [heff, List.append_nil] at this
      show (mstep s).out = acc
      rcases hd : s.done with _ | _
      swap
      · simp [mstep, hd, hout]
      rcases hp : s.pend with _ | ⟨_ | m⟩
      · have hbuf : s.buf = [] := by
          simpa [meff, hp, mpendList] using heff
        rcases hw : s.waiting with _ | _
        · rcases hc : s.closed with _ | _ <;>
            simp [mstep, hd, hp, hw, hc, hbuf, hout]
        · simp [mstep, hd, hp, hw, hout]
      · simp [mstep, hd, hp, hout]
      · exfalso
        have : mpendList (some (some m)) ++ s.buf = [] := by
          simpa [meff, hp] using heff
        simp [mpendList] at this
  | succ n ih =>
      intro s acc h hlen
      show (runChan (n + 1) (mstep s)).out = acc
      refine ih (mstep s) acc (minv_step h) ?_
      rcases hd : s.done with _ | _
      swap
      · have : mstep s = s := by simp [mstep, hd]
        rw [this]
        have := h.done_eff hd
        simp [this]
      rcases hp : s.pend with _ | ⟨_ | m⟩
      · rcases hw : s.waiting with _ | _
        swap
        · have : mstep s = s := by simp [mstep, hd, hp, hw]
          rw [this]
          have := (h.waiting_empty hw).1
          simp [meff, hp, mpendList, this]
        rcases hc : s.closed with _ | _
        swap
        · have hcs : mstep s = { s with buf := [], out := s.out ++ s.buf, done := true } := by
            simp [mstep, hd, hp, hw, hc]
          rw [hcs]
          simp [meff, hp, mpendList]
        · rcases hb : s.buf with _ | ⟨b, rest⟩
          · have hcs : mstep s = { s with waiting := true } := by
              simp [mstep, hd, hp, hw, hc, hb]
            rw [hcs]
            simp [meff, hp, mpendList, hb]
          · have hcs : mstep s = { s with buf := rest, out := s.out ++ [b] } := by
              simp [mstep, hd, hp, hw, hc, hb]
            rw [hcs]
            have : meff s = b :: rest := by simp [meff, hp, mpendList, hb]
            rw [this] at hlen
            simpa [meff, hp, mpendList] using Nat.le_of_succ_le_succ hlen
      · have hbuf : s.buf = [] := (h.pend_null hp).2
        have hcs : mstep s = { s with pend := none, done := true } := by
          simp [mstep, hd, hp]
        rw [hcs]
        simp [meff, mpendList, hbuf]
      · have hcs : mstep s = { s with pend := none, out := s.out ++ [m] } := by
          simp [mstep, hd, hp]
        rw [hcs]
        have : meff s = m :: s.buf := by simp [meff, hp, mpendList]
        rw [this] at hlen
        simpa [meff, mpendList] using Nat.le_of_succ_le_succ hlen

/-- FIFO delivery on a `MessageChannel`: running the consumer to quiescence
after any interleaving yields exactly the messages pushed while open, in push
order. -/
theorem mchan_fifo_delivery (t : List MAct) :
    (runChan ((mexec t).buf.length + 2) (mexec t)).out = maccepted t false := by
  have hinv : MInv (mexec t) (maccepted t false) := by
    have := mexec_inv_aux t MState.init [] minv_init
    simpa [mexec, MState.init] using this
  have hlen : (meff (mexec t)).length ≤ (mexec t).buf.length + 1 := by
    rcases hp : (mexec t).pend with _ | ⟨_ | m⟩ <;> simp [meff, mpendList, hp]
  exact mflush ((mexec t).buf.length + 1) (mexec t) (maccepted t false) hinv hlen

/-- One side of a channel connection (`ChannelConnectionEnd`): it sends on one
underlying `MessageChannel` and receives from the other. -/
structure EndState where
  sendCh : MState
  recvCh : MState

/-- `ChannelConnectionEnd.close`: closes both underlying channels. -/
def closeEnd (e : EndState) : EndState :=
  { sendCh := mclose e.sendCh, recvCh := mclose e.recvCh }

/-- `ChannelConnectionEnd.send`: pushes onto the send channel. -/
def sendEnd (m : JsonRpcMessageRepr) (e : EndState) : EndState :=
  { e with sendCh := mpush m e.sendCh }

/-- The two underlying channels of a `createChannelPair` result. -/
structure PairState where
  l2r : MState
  r2l : MState

/-- The `left` endpoint of a channel pair: sends on `leftToRight`, receives
from `rightToLeft` (`createChannelPair` in `channel.ts`). -/
def leftEnd (p : PairState) : EndState :=
  { sendCh := p.l2r, recvCh := p.r2l }

/-- The `right` endpoint of a channel pair: sends on `rightToLeft`, receives
from `leftToRight`. -/
def rightEnd (p : PairState) : EndState :=
  { sendCh := p.r2l, recvCh := p.l2r }

/-- `left.send(m)` on a channel pair. -/
def sendLeft (m : JsonRpcMessageRepr) (p : PairState) : PairState :=
  { p with l2r := mpush m p.l2r }

/-- Which side of a channel pair an endpoint is. -/
inductive Side where
  | left
  | right
deriving DecidableEq

/-- An endpoint identity: which `createChannelPair` call produced it (each
`connect()` creates a fresh pair) and which side it is. -/
structure ChanEnd where
  pairId : Nat
  side : Side
deriving DecidableEq

/-- The opposite endpoint of the same pair. -/
def peerOf (e : ChanEnd) : ChanEnd :=
  { pairId := e.pairId,
    side := match e.side with
            | .left => .right
            | .right => .left }

/-- The state of a `ChannelConnector`: the `pendingOtherEnd` slot, plus a
counter supplying the identity of each freshly created pair. -/
structure CState where
  counter : Nat
  pendingOtherEnd : Option ChanEnd

/-- `ChannelConnector.connect()`: creates a fresh pair, stores `pair.right` in
the pending slot, and returns `pair.left`. -/
def connectC (s : CState) : CState × ChanEnd :=
  ({ counter := s.counter + 1, pendingOtherEnd := some { pairId := s.counter, side := .right } },
   { pairId := s.counter, side := .left })

/-- `ChannelConnector.getOtherEnd()`: returns the pending endpoint (possibly
`null`) and clears the slot. -/
def getOtherEnd (s : CState) : Option ChanEnd × CState :=
  (s.pendingOtherEnd, { s with pendingOtherEnd := none })

/-- C8: immediately after `connect()`, `getOtherEnd()` returns the peer of the
endpoint `connect()` returned; the slot holds exactly one value, so a second
`getOtherEnd()` returns `null`; a second `connect()` before retrieval replaces
the pending endpoint; and a message sent on the left end is pushed onto the
right end's receive channel, whose iteration delivers pushes in FIFO order. -/
theorem channel_connector_slot :
    (∀ s : CState, (getOtherEnd (connectC s).1).1 = some (peerOf (connectC s).2)) ∧
    (∀ s : CState, (getOtherEnd (getOtherEnd s).2).1 = none) ∧
    (∀ s : CState,
      (connectC (connectC s).1).1.pendingOtherEnd =
        some (peerOf (connectC (connectC s).1).2) ∧
      (connectC (connectC s).1).1.pendingOtherEnd ≠ some (peerOf (connectC s).2)) ∧
    (∀ (p : PairState) (m : JsonRpcMessageRepr),
      (rightEnd (sendLeft m p)).recvCh = mpush m (rightEnd p).recvCh ∧
      (leftEnd (sendLeft m p)).sendCh = mpush m (leftEnd p).sendCh) ∧
    (∀ t : List MAct,
      (runChan ((mexec t).buf.length + 2) (mexec t)).out = maccepted t false) := by
  refine ⟨fun s => rfl, fun s => rfl, ?_, fun p m => ⟨rfl, rfl⟩, mchan_fifo_delivery⟩
  intro s
  refine ⟨rfl, ?_⟩
  simp [connectC, peerOf]

/-- C9: closing an in-memory connection end is idempotent — a second `close()`
leaves the state (hence all observable behavior) unchanged — and after
`close()` a consumer suspended awaiting the end's inbound stream is resolved
with `null`, so its iteration terminates without yielding anything further. -/
theorem channel_close_idempotent :
    (∀ e : EndState, closeEnd (closeEnd e) = closeEnd e) ∧
    (∀ e : EndState, e.recvCh.waiting = true →
      (mstep (closeEnd e).recvCh).done = true ∧
      (mstep (closeEnd e).recvCh).out = e.recvCh.out) := by
  constructor
  · intro e
    have h : ∀ s : MState, mclose (mclose s) = mclose s := by
      intro s
      rcases hw : s.waiting with _ | _ <;> simp [mclose, hw]
    simp [closeEnd, h]
  · intro e hw
    rcases hd : e.recvCh.done with _ | _ <;>
      simp [closeEnd, mclose, mstep, hw, hd]

/-- A connection end whose inbound-stream consumer is suspended. -/
def waitingEnd : EndState :=
  { sendCh := MState.init,
    recvCh := { buf := [], closed := false, waiting := true, pend := none, out := [], done := false } }

/-- Witness for `channel_close_idempotent` at a concrete suspended consumer. -/
theorem channel_close_idempotent_witness :
    (mstep (closeEnd waitingEnd).recvCh).done = true ∧
    (mstep (closeEnd waitingEnd).recvCh).out = waitingEnd.recvCh.out :=
  channel_close_idempotent.2 waitingEnd rfl

/-! ## Request/response correlation (spec-modelled)

The conductor implementation (`conductor.ts`) is not among the sources — only
its tests are — so the per-hop pending-request table and its use are modelled
from the specification: "per conductor instance and per proxy hop, a mapping
from a freshly minted local id to {originalId, sourceRole}", "mint a fresh
local id, record {originalId, responder} in that hop's pending table, and send
the remapped request", and "look up the local id in that hop's pending table;
if found, remove it and invoke the stored responder ...; if the id is unknown,
discard with a warning".  Delivery through a stored responder is modelled by
returning the `(originalId, payload)` pair; `α` is the opaque response
payload (result or error). -/

/-- Modelled from the spec: the per-hop correlation state of the missing
`conductor.ts` — the fresh-local-id counter and the pending-request table
mapping minted local ids to original ids. -/
structure CorrState where
  nextId : Nat
  table : List (Nat × JsonRpcId)

/-- Modelled from the spec: forwarding one request to the hop — mint a fresh
local id, append the `{originalId}` entry under it, and use the minted id on
the wire. -/
def forwardRequest (origId : JsonRpcId) (st : CorrState) : Nat × CorrState :=
  (st.nextId,
   { nextId := st.nextId + 1, table := st.table ++ [(st.nextId, origId)] })

/-- Forward a batch of requests in order, returning the minted local ids. -/
def forwardAll : List JsonRpcId → CorrState → List Nat × CorrState
  | [], st => ([], st)
  | o :: os, st =>
      let fwd := forwardRequest o st
      let rec2 := forwardAll os fwd.2
      (fwd.1 :: rec2.1, rec2.2)

/-- Modelled from the spec: handling one response arriving from the hop — look
the local id up in the pending table; on the first match remove the entry and
deliver the payload re-associated with the original id; an unknown id is
dropped (`none`) without touching the state. -/
def handleResponse {α : Type} (localId : Nat) (payload : α) (st : CorrState) :
    Option (JsonRpcId × α) × CorrState :=
  match st.table.find? (fun e => e.1 == localId) with
  | some entry =>
      (some (entry.2, payload),
       { st with table := st.table.eraseP (fun e => e.1 == localId) })
  | none => (none, st)

/-- Process a list of responses in arrival order, collecting the deliveries. -/
def processResponses {α : Type} : List (Nat × α) → CorrState → List (JsonRpcId × α) × CorrState
  | [], st => ([], st)
  | (l, p) :: rest, st =>
      let step := handleResponse l p st
      let rec2 := processResponses rest step.2
      (step.1.toList ++ rec2.1, rec2.2)

theorem forwardAll_fst :
    ∀ (origs : List JsonRpcId) (st : CorrState),
      (forwardAll origs st).1 = List.range' st.nextId origs.length := by
  intro origs
  induction origs with
  | nil => intro st; rfl
  | cons o os ih =>
      intro st
      show st.nextId :: (forwardAll os { nextId := st.nextId + 1, table := st.table ++ [(st.nextId, o)] }).1 = List.range' st.nextId (os.length + 1)
      rw [ih]
      rfl

theorem forwardAll_table :
    ∀ (origs : List JsonRpcId) (st : CorrState),
      (forwardAll origs st).2.table =
        st.table ++ (List.range' st.nextId origs.length).zip origs := by
  intro origs
  induction origs with
  | nil => intro st; simp [forwardAll]
  | cons o os ih =>
      intro st
      show (forwardAll os { nextId := st.nextId + 1, table := st.table ++ [(st.nextId, o)] }).2.table = st.table ++ (st.nextId, o) :: (List.range' (st.nextId + 1) os.length).zip os
      rw [ih]
      simp

theorem find_key_unique {γ : Type} :
    ∀ (L : List (Nat × γ)) (z : Nat × γ) (l : Nat),
      (L.map (fun e => e.1)).Nodup → z ∈ L → z.1 = l →
      L.find? (fun e => e.1 == l) = some z := by
  intro L
  induction L with
  | nil => intro z l _ hz _; cases hz
  | cons a L ih =>
      intro z l hN hz hk
      rcases heq : (a.1 == l) with _ | _
      · have hz' : z ∈ L := by
          rcases List.mem_cons.mp hz with rfl | hz'
          · exfalso
            simp only [hk] at heq
            simp at heq
          · exact hz'
        rw [show (a :: L).find? (fun e => e.1 == l) = L.find? (fun e => e.1 == l) from List.find?_cons_of_neg L (by simp [heq])]
        exact ih z l (List.nodup_cons.mp hN).2 hz' hk
      · have hak : a.1 = l := by simpa using heq
        rcases List.mem_cons.mp hz with rfl | hz'
        · exact List.find?_cons_of_pos L heq
        · exfalso
          have : a.1 ∈ L.map (fun e => e.1) := by
            rw [hak, ← hk]
            exact List.mem_map_of_mem _ hz'
          exact (List.nodup_cons.mp hN).1 this

theorem perm_cons_eraseP_key {γ : Type} :
    ∀ (L : List (Nat × γ)) (z : Nat × γ) (l : Nat),
      (L.map (fun e => e.1)).Nodup → z ∈ L → z.1 = l →
      L.Perm (z :: L.eraseP (fun e => e.1 == l)) := by
  intro L
  induction L with
  | nil => intro z l _ hz _; cases hz
  | cons a L ih =>
      intro z l hN hz hk
      rcases heq : (a.1 == l) with _ | _
      · have hz' : z ∈ L := by
          rcases List.mem_cons.mp hz with rfl | hz'
          · exfalso
            simp only [hk] at heq
            simp at heq
          · exact hz'
        rw [show (a :: L).eraseP (fun e => e.1 == l) = a :: L.eraseP (fun e => e.1 == l) from List.eraseP_cons_of_neg (by simp [heq])]
        have h1 := (ih z l (List.nodup_cons.mp hN).2 hz' hk).cons a
        exact h1.trans (List.Perm.swap z a _)
      · have hak : a.1 = l := by simpa using heq
        rcases List.mem_cons.mp hz with rfl | hz'
        · rw [show (z :: L).eraseP (fun e => e.1 == l) = L from List.eraseP_cons_of_pos heq]
        · exfalso
          have : a.1 ∈ L.map (fun e => e.1) := by
            rw [hak, ← hk]
            exact List.mem_map_of_mem _ hz'
          exact (List.nodup_cons.mp hN).1 this

theorem corr_process_perm {α : Type} (c : Nat) :
    ∀ (rs : List (Nat × α)) (zipped : List (Nat × JsonRpcId × α)),
      (zipped.map (fun z => z.1)).Nodup →
      rs.Perm (zipped.map (fun z => (z.1, z.2.2))) →
      ((processResponses rs { nextId := c, table := zipped.map (fun z => (z.1, z.2.1)) }).1).Perm (zipped.map (fun z => z.2)) ∧
      (processResponses rs { nextId := c, table := zipped.map (fun z => (z.1, z.2.1)) }).2.table = [] := by
  intro rs
  induction rs with
  | nil =>
      intro zipped _ hperm
      have hz : zipped.map (fun z => (z.1, z.2.2)) = [] := List.perm_nil.mp hperm.symm
      have hz2 : zipped = [] := List.map_eq_nil_iff.mp hz
      subst hz2
      simp [processResponses]
  | cons hd rest ih =>
      rcases hd with ⟨l, p⟩
      intro zipped hN hperm
      have hmem : (l, p) ∈ zipped.map (fun z => (z.1, z.2.2)) :=
        hperm.subset (List.mem_cons_self _ _)
      obtain ⟨z, hz, hzeq⟩ := List.mem_map.mp hmem
      have hz1 : z.1 = l := congrArg Prod.fst hzeq
      have hz2 : z.2.2 = p := congrArg Prod.snd hzeq
      have hNf : ((zipped.map (fun z => (z.1, z.2.1))).map (fun e => e.1)).Nodup := by
        rw [List.map_map]
        exact hN
      have hfz : (zipped.map (fun z => (z.1, z.2.1))).find? (fun e => e.1 == l) = some (z.1, z.2.1) :=
        find_key_unique _ (z.1, z.2.1) l hNf (List.mem_map_of_mem _ hz) hz1
      have hhr : handleResponse l p { nextId := c, table := zipped.map (fun z => (z.1, z.2.1)) } = (some (z.2.1, p), { nextId := c, table := (zipped.eraseP (fun e => e.1 == l)).map (fun z => (z.1, z.2.1)) }) := by
        simp only [handleResponse, hfz]
        rw [List.eraseP_map]
        rfl
      have hzp : zipped.Perm (z :: zipped.eraseP (fun e => e.1 == l)) :=
        perm_cons_eraseP_key zipped z l hN hz hz1
      have hrest : rest.Perm ((zipped.eraseP (fun e => e.1 == l)).map (fun z => (z.1, z.2.2))) := by
        have h2 : (zipped.map (fun z => (z.1, z.2.2))).Perm ((l, p) :: (zipped.eraseP (fun e => e.1 == l)).map (fun z => (z.1, z.2.2))) := by
          have h3 := hzp.map (fun z => (z.1, z.2.2))
          simpa [hz1, hz2] using h3
        exact List.Perm.cons_inv (hperm.trans h2)
      have hNerase : ((zipped.eraseP (fun e => e.1 == l)).map (fun z => z.1)).Nodup :=
        List.Nodup.sublist (List.Sublist.map _ (List.eraseP_sublist zipped)) hN
      obtain ⟨ihp, iht⟩ := ih (zipped.eraseP (fun e => e.1 == l)) hNerase hrest
      have hzpair : ((z.2.1, p) : JsonRpcId × α) = z.2 := by
        rw [← hz2]
      constructor
      · simp only [processResponses, hhr, Option.toList, List.singleton_append]
        rw [hzpair]
        exact (ihp.cons z.2).trans (by simpa using (hzp.map (fun z => z.2)).symm)
      · simp only [processResponses, hhr]
        exact iht

/-- C2: for requests forwarded to the same hop, whatever permutation of order
the hop's responses arrive in, each response is delivered back re-associated
with its request's original id, and each pending-table entry is removed
exactly once, on the first matching response — the final table is empty and
the multiset of deliveries is exactly the original (id, payload) pairs. -/
theorem request_response_correlation {α : Type} (reqs : List (JsonRpcId × α))
    (c0 : Nat) (rs : List (Nat × α))
    (hperm : rs.Perm (((forwardAll (reqs.map Prod.fst) { nextId := c0, table := [] }).1).zip (reqs.map Prod.snd))) :
    ((processResponses rs (forwardAll (reqs.map Prod.fst) { nextId := c0, table := [] }).2).1).Perm reqs ∧
    (processResponses rs (forwardAll (reqs.map Prod.fst) { nextId := c0, table := [] }).2).2.table = [] := by
  have hlen2 : (reqs.map Prod.fst).length = reqs.length := by simp
  have hids : (forwardAll (reqs.map Prod.fst) { nextId := c0, table := [] }).1 = List.range' c0 reqs.length := by
    rw [forwardAll_fst]
    simp
  have htab : (forwardAll (reqs.map Prod.fst) { nextId := c0, table := [] }).2.table = ((List.range' c0 reqs.length).zip reqs).map (fun z => (z.1, z.2.1)) := by
    rw [forwardAll_table]
    show [] ++ (List.range' c0 (reqs.map Prod.fst).length).zip (reqs.map Prod.fst) = _
    rw [List.nil_append, hlen2, List.zip_map_right]
    rfl
  have hN : (((List.range' c0 reqs.length).zip reqs).map (fun z => z.1)).Nodup := by
    rw [show (fun z : Nat × (JsonRpcId × α) => z.1) = (Prod.fst : Nat × (JsonRpcId × α) → Nat) from rfl]
    rw [List.map_fst_zip _ _ (by simp)]
    exact List.nodup_range' c0 reqs.length
  have hperm2 : rs.Perm (((List.range' c0 reqs.length).zip reqs).map (fun z => (z.1, z.2.2))) := by
    rw [hids, List.zip_map_right] at hperm
    exact hperm
  have hsnd : ((List.range' c0 reqs.length).zip reqs).map (fun z => z.2) = reqs := by
    rw [show (fun z : Nat × (JsonRpcId × α) => z.2) = (Prod.snd : Nat × (JsonRpcId × α) → JsonRpcId × α) from rfl]
    exact List.map_snd_zip _ _ (by simp)
  obtain ⟨h1, h2⟩ := corr_process_perm ((forwardAll (reqs.map Prod.fst) { nextId := c0, table := [] }).2.nextId) rs ((List.range' c0 reqs.length).zip reqs) hN hperm2
  have hstF : ({ nextId := (forwardAll (reqs.map Prod.fst) { nextId := c0, table := [] }).2.nextId, table := ((List.range' c0 reqs.length).zip reqs).map (fun z => (z.1, z.2.1)) } : CorrState) = (forwardAll (reqs.map Prod.fst) { nextId := c0, table := [] }).2 := by
    rw [← htab]
  rw [hstF] at h1 h2
  exact ⟨h1.trans (by rw [hsnd]), h2⟩

/-- Witness for `request_response_correlation`: two requests with original ids
10 and 20 and payloads `true`/`false`, answered in reversed order. -/
theorem request_response_correlation_witness :
    ((processResponses [(1, false), (0, true)] (forwardAll ([(JsonRpcId.num 10, true), (JsonRpcId.num 20, false)].map Prod.fst) { nextId := 0, table := [] }).2).1).Perm [(JsonRpcId.num 10, true), (JsonRpcId.num 20, false)] ∧
    (processResponses [(1, false), (0, true)] (forwardAll ([(JsonRpcId.num 10, true), (JsonRpcId.num 20, false)].map Prod.fst) { nextId := 0, table := [] }).2).2.table = [] := by
  refine request_response_correlation [(JsonRpcId.num 10, true), (JsonRpcId.num 20, false)] 0 [(1, false), (0, true)] ?_
  show ([((1 : Nat), false), (0, true)]).Perm [(0, true), (1, false)]
  exact List.Perm.swap (0, true) (1, false) []

/-! ## Proxy-capability handshake (spec-modelled)

The conductor implementation (`conductor.ts`) is absent from the sources, so
the initialize-handshake outcome is modelled from the specification (§4.3
steps 3–5): the initialize request is walked hop by hop along the proxy
chain; each proxy's initialize response must carry `_meta.proxy = true`, and
"if any proxy's response omits this acknowledgment, the conductor fails the
client's initialize call with an error whose message identifies that the
component did not accept proxy capability"; once the last hop answers, the
client's original initialize request is resolved with that result. -/

/-- JSON object field lookup. -/
def JsonValue.getField : JsonValue → String → Option JsonValue
  | .obj fields, k => (fields.find? (fun f => f.1 == k)).map (fun f => f.2)
  | _, _ => none

/-- Modelled from the spec: the missing conductor's check that a proxy's
initialize response result carries the `_meta.proxy = true` acknowledgment. -/
def hasProxyAck (result : JsonValue) : Bool :=
  match (result.getField "_meta").bind (fun m => m.getField "proxy") with
  | some (.bool true) => true
  | _ => false

/-- Modelled from the spec: how the missing conductor resolves the client's
original initialize call, given each proxy's initialize response result (in
chain order) and the agent's eventual result. -/
def initChainResult (proxyResults : List JsonValue) (agentResult : JsonValue) :
    Except JsonRpcError JsonValue :=
  match proxyResults with
  | [] => .ok agentResult
  | r :: rest =>
      if hasProxyAck r then initChainResult rest agentResult
      else .error { code := -32603, message := "Component did not accept proxy capability" }

/-- C3: if the first proxy's initialize response lacks the `_meta.proxy = true`
acknowledgment, the client's initialize call resolves with a JSON-RPC error
whose message contains "proxy capability"; if the acknowledgment is present
(single-proxy chain), the call succeeds with the agent's eventual result. -/
theorem proxy_capability_handshake :
    (∀ (r : JsonValue) (rest : List JsonValue) (a : JsonValue),
      hasProxyAck r = false →
      ∃ e : JsonRpcError, initChainResult (r :: rest) a = .error e ∧
        ∃ pre post, e.message = pre ++ "proxy capability" ++ post) ∧
    (∀ (r a : JsonValue), hasProxyAck r = true →
      initChainResult [r] a = .ok a) := by
  constructor
  · intro r rest a h
    refine ⟨{ code := -32603, message := "Component did not accept proxy capability" }, ?_, "Component did not accept ", "", ?_⟩
    · simp [initChainResult, h]
    · rfl
  · intro r a h
    simp [initChainResult, h]

/-- An initialize response result without the proxy acknowledgment. -/
def noAckResult : JsonValue := .obj [("serverInfo", .str "non-proxy")]

/-- An initialize response result carrying `_meta.proxy = true`. -/
def ackResult : JsonValue := .obj [("_meta", .obj [("proxy", .bool true)])]

/-- Witness for `proxy_capability_handshake` at concrete results. -/
theorem proxy_capability_handshake_witness :
    (∃ e : JsonRpcError, initChainResult [noAckResult] (JsonValue.str "agent-result") = .error e ∧
      ∃ pre post, e.message = pre ++ "proxy capability" ++ post) ∧
    initChainResult [ackResult] (JsonValue.str "agent-result") = .ok (JsonValue.str "agent-result") :=
  ⟨proxy_capability_handshake.1 noAckResult [] (JsonValue.str "agent-result") rfl,
   proxy_capability_handshake.2 ackResult (JsonValue.str "agent-result") rfl⟩

end Thinkwell
